import Mathlib

/-!
Verification of the Hybrid Memory Retrieval & Ranking Engine
(`life-os/app/services/memory_manager.py` together with the result-shaping
parts of `app/models/vector_db.py` and `app/models/knowledge_graph.py`).

Python dicts used as records are embedded as a fixed structure `Mem` whose
optional fields start out `none` (a missing dict key); `dict.get(k, d)`
becomes `Option.getD`.  Insertion-ordered dicts keyed by strings are embedded
as association lists with in-place update (`dictSet`), which preserves both
key positions and insertion order exactly as CPython dicts do.  Python's
stable `list.sort(key=..., reverse=True)` is embedded as Mathlib's stable
`List.insertionSort` with the descending-score relation.  Scores are real
numbers; `base ** time_diff` is `Real.rpow`.
-/

/-- Insertion-ordered dictionary update: `d[k] = v` on a CPython dict keeps
the key's original position when the key exists and appends otherwise. -/
def dictSet {κ β : Type} [DecidableEq κ] (k : κ) (v : β) : List (κ × β) → List (κ × β)
  | [] => [(k, v)]
  | p :: rest => if p.1 = k then (k, v) :: rest else p :: dictSet k v rest

/-- Dictionary lookup, `d.get(k)` / `k in d`. -/
def dictGet? {κ β : Type} [DecidableEq κ] (k : κ) : List (κ × β) → Option β
  | [] => none
  | p :: rest => if p.1 = k then some p.2 else dictGet? k rest

/-- `needle` is a leading block of `hay` (both as character lists). -/
def isLeadingChunk : List Char → List Char → Bool
  | [], _ => true
  | _ :: _, [] => false
  | a :: as, b :: bs => a == b && isLeadingChunk as bs

/-- Python's substring test `needle in hay`; the empty needle matches. -/
def containsChunk (needle : List Char) : List Char → Bool
  | [] => isLeadingChunk needle []
  | b :: bs => isLeadingChunk needle (b :: bs) || containsChunk needle bs

/-- `s.lower()` for the ASCII strings this engine handles, done
character-wise so concrete instances reduce in the kernel. -/
def lowerList (s : String) : List Char :=
  s.toList.map Char.toLower

/-- `s.lower()` as a string. -/
def lowerStr (s : String) : String :=
  (lowerList s).asString

/-- A regex word character, `\w` = `[a-zA-Z0-9_]` (inputs are ASCII). -/
def isWordChar (c : Char) : Bool :=
  c.isAlphanum || c == '_'

/-- Splits a character list into its maximal runs of characters satisfying
`p`, dropping the separators. -/
def splitRunsAux (p : Char → Bool) : List Char → List Char → List (List Char)
  | [], acc => if acc.isEmpty then [] else [acc.reverse]
  | c :: cs, acc =>
    if p c then splitRunsAux p cs (c :: acc)
    else if acc.isEmpty then splitRunsAux p cs []
    else acc.reverse :: splitRunsAux p cs []

def splitRuns (p : Char → Bool) (cs : List Char) : List (List Char) :=
  splitRunsAux p cs []

/-- `re.findall(r'\b[a-zA-Z]{3,}\b', query.lower())`: a match is exactly a
maximal `\w`-run that consists solely of letters and has length at least 3
(a letter run touching a digit or underscore has no word boundary). -/
def findWords (query : String) : List String :=
  ((splitRuns isWordChar (lowerList query)).filter
    (fun r => decide (3 ≤ r.length) && r.all Char.isAlpha)).map List.asString

/-- The stop-word set of `_extract_query_concepts`, verbatim. -/
def stopWords : List String :=
  ["the", "and", "for", "are", "but", "not", "you", "all", "can",
   "had", "her", "was", "one", "our", "out", "day", "get", "has",
   "him", "his", "how", "its", "may", "new", "now", "old", "see",
   "two", "who", "boy", "did", "man", "too", "way", "she", "use",
   "will", "been", "from", "they", "have", "said", "each", "which",
   "what", "were", "when", "where", "more", "some", "like", "into",
   "time", "very", "then", "come", "back", "only", "think", "also"]

/-- `concepts = [word for word in words if word not in stop_words and len(word) > 3]` -/
def candidateConcepts (query : String) : List String :=
  (findWords query).filter (fun w => !(stopWords.contains w) && decide (3 < w.length))

/-- The `concept_scores` dict: iterating `enumerate(concepts)` and assigning
`position_weight * frequency_weight`; a repeated concept is overwritten in
place, so its last occurrence's position weight is the one kept. -/
def conceptScores (query : String) : List (String × ℚ) :=
  let concepts := candidateConcepts query
  concepts.enum.foldl
    (fun acc ic =>
      dictSet ic.2
        ((1 - ((ic.1 : ℚ) / (concepts.length : ℚ)) * (3/10)) * (concepts.count ic.2 : ℚ))
        acc)
    []

/-- `sorted(concept_scores.items(), key=lambda x: x[1], reverse=True)`:
stable descending sort on the score component. -/
def sortPairsDesc (l : List (String × ℚ)) : List (String × ℚ) :=
  List.insertionSort (fun a b => b.2 ≤ a.2) l

/-- `_extract_query_concepts`: top 8 concepts by score. -/
def extractQueryConcepts (query : String) : List String :=
  ((sortPairsDesc (conceptScores query)).take 8).map Prod.fst

/-- A memory record: the dict shape flowing out of `vector_db` and through
`memory_manager`.  Optional fields model dict keys that may be absent;
`metadata` and `enhanced_metadata` are carried as opaque payloads (their JSON
structure never influences retrieval or ranking). -/
structure Mem where
  content : String := ""
  content_type : String := ""
  user_id : String := ""
  timestamp : String := ""
  media_url : String := ""
  metadata : String := ""
  entities : List String := []
  sentiment : String := ""
  keywords : List String := []
  certainty : Option ℝ := none
  score : Option ℝ := none
  source : Option String := none
  temporal_factor : Option ℝ := none
  time_diff_days : Option ℝ := none
  id : Option String := none
  connections : Option (List String) := none
  enhanced_metadata : Option String := none
  sdk_capabilities : Option String := none

instance : Inhabited Mem := ⟨{}⟩

/-- A raw Weaviate result item as consumed by `search_memories` /
`get_recent_memories`; `certainty` is the `_additional.certainty` value,
absent when Weaviate did not report one. -/
structure Item where
  content : String := ""
  content_type : String := ""
  user_id : String := ""
  timestamp : String := ""
  media_url : String := ""
  metadata : String := ""
  entities : List String := []
  sentiment : String := ""
  keywords : List String := []
  certainty : Option ℝ := none

/-- A `(concept, strength, distance)` row returned by
`Neo4jClient.find_related_concepts`. -/
structure GraphConcept where
  concept : String
  strength : ℝ
  distance : ℕ

/-- `search_memories`: any exception inside the call is caught and logged,
yielding `[]`; otherwise items pass a `certainty >= min_certainty` filter and
are reshaped, keeping their certainty. -/
noncomputable def searchMemories (raw : Except Unit (List Item)) (minCertainty : ℝ) :
    List Mem :=
  match raw with
  | Except.error _ => []
  | Except.ok items =>
    (items.filter (fun it => decide (minCertainty ≤ it.certainty.getD 0))).map (fun it =>
      { content := it.content, content_type := it.content_type, user_id := it.user_id,
        timestamp := it.timestamp, media_url := it.media_url, metadata := it.metadata,
        entities := it.entities, sentiment := it.sentiment, keywords := it.keywords,
        certainty := some (it.certainty.getD 0) })

/-- `get_recent_memories`: failures degrade to `[]`; result rows carry no
certainty key. -/
def getRecentMemories (raw : Except Unit (List Item)) : List Mem :=
  match raw with
  | Except.error _ => []
  | Except.ok items =>
    items.map (fun it =>
      { content := it.content, content_type := it.content_type, user_id := it.user_id,
        timestamp := it.timestamp, media_url := it.media_url, metadata := it.metadata,
        entities := it.entities, sentiment := it.sentiment, keywords := it.keywords })

/-- `find_related_concepts`: failures degrade to `[]`. -/
def findRelatedConcepts (raw : Except Unit (List GraphConcept)) : List GraphConcept :=
  match raw with
  | Except.error _ => []
  | Except.ok l => l

/-- The candidate identity key of `_combine_and_rank_memories`:
`memory.get('timestamp', '') + memory.get('content', '')[:50]`. -/
def memKey (m : Mem) : String :=
  m.timestamp ++ (m.content.toList.take 50).asString

/-- `semantic_weight = 0.7 if not use_long_context else 0.6` -/
noncomputable def semanticWeight (lc : Bool) : ℝ := if lc then 0.6 else 0.7

/-- `temporal_weight = 0.3 if not use_long_context else 0.25` -/
noncomputable def temporalWeight (lc : Bool) : ℝ := if lc then 0.25 else 0.3

/-- `graph_weight = 0.2 if not use_long_context else 0.25` -/
noncomputable def graphWeight (lc : Bool) : ℝ := if lc then 0.25 else 0.2

/-- A vector memory as entered into `combined`: scored
`certainty * semantic_weight` (certainty defaulting to 0.5) and tagged. -/
noncomputable def vecEntry (lc : Bool) (m : Mem) : Mem :=
  { m with score := some (m.certainty.getD 0.5 * semanticWeight lc),
           source := some "vector" }

/-- A recent memory as inserted into `combined` when its key is new:
score `temporal_weight`, tagged. -/
noncomputable def recEntry (lc : Bool) (m : Mem) : Mem :=
  { m with score := some (temporalWeight lc), source := some "temporal" }

/-- First loop of `_combine_and_rank_memories`: each vector memory is scored
and written into the `combined` dict. -/
noncomputable def vectorPhase (lc : Bool) (vectorMems : List Mem) : List (String × Mem) :=
  vectorMems.foldl (fun acc m => dictSet (memKey m) (vecEntry lc m) acc) []

/-- `combined[mem_id]['score'] += d`.  Every entry of `combined` carries a
score from the moment it is inserted, so the `getD 0` default is never the
value actually read. -/
noncomputable def bumpScore (k : String) (d : ℝ) :
    List (String × Mem) → List (String × Mem)
  | [] => []
  | p :: rest =>
    if p.1 = k then (p.1, { p.2 with score := some (p.2.score.getD 0 + d) }) :: rest
    else p :: bumpScore k d rest

/-- Second loop: a recent memory already in `combined` gets its score bumped
by `temporal_weight`; otherwise it is inserted with score `temporal_weight`. -/
noncomputable def recentPhase (lc : Bool) (recentMems : List Mem)
    (acc : List (String × Mem)) : List (String × Mem) :=
  recentMems.foldl
    (fun acc m =>
      if (dictGet? (memKey m) acc).isSome then
        bumpScore (memKey m) (temporalWeight lc) acc
      else
        acc ++ [(memKey m, recEntry lc m)])
    acc

/-- `concept_matches` for one graph concept against one memory: content
substring match counts 2, entity match 3, keyword match 1. -/
def matchCount (g : GraphConcept) (m : Mem) : ℕ :=
  (if containsChunk (lowerList g.concept) (lowerList m.content) then 2 else 0)
  + (if (m.entities.map lowerStr).contains (lowerStr g.concept) then 3 else 0)
  + (if (m.keywords.map lowerStr).contains (lowerStr g.concept) then 1 else 0)

/-- `if concept_matches > 0: combined[mem_id]['score'] += strength *
graph_weight * concept_matches`. -/
noncomputable def graphBoost (lc : Bool) (g : GraphConcept) (m : Mem) : Mem :=
  if 0 < matchCount g m then
    { m with score := some (m.score.getD 0 + g.strength * graphWeight lc * (matchCount g m : ℝ)) }
  else m

/-- The cumulative effect of the third loop on a single entry. -/
noncomputable def applyBoosts (lc : Bool) (graphConcepts : List GraphConcept) (m : Mem) : Mem :=
  graphConcepts.foldl (fun m g => graphBoost lc g m) m

/-- The fields of a memory that determine its identity key and its concept
matches; every scoring update leaves them unchanged. -/
def staticView (m : Mem) : String × String × List String × List String :=
  (m.content, m.timestamp, m.entities, m.keywords)

/-- Third loop: every graph concept is matched against every combined entry. -/
noncomputable def graphPhase (lc : Bool) (graphConcepts : List GraphConcept)
    (acc : List (String × Mem)) : List (String × Mem) :=
  graphConcepts.foldl (fun acc g => acc.map (fun p => (p.1, graphBoost lc g p.2))) acc

/-- The descending-score ordering used by both `sort(..., reverse=True)`
calls; the sort key is `x.get('score', 0)`. -/
def byScoreDesc (a b : Mem) : Prop :=
  b.score.getD 0 ≤ a.score.getD 0

noncomputable instance : DecidableRel byScoreDesc :=
  fun a b => inferInstanceAs (Decidable (b.score.getD 0 ≤ a.score.getD 0))

instance : IsTotal Mem byScoreDesc :=
  ⟨fun _ _ => le_total _ _⟩

instance : IsTrans Mem byScoreDesc :=
  ⟨fun _ _ _ h1 h2 => le_trans h2 h1⟩

/-- Python's `list.sort(key=lambda x: x.get('score', 0), reverse=True)`:
a stable sort placing higher scores first and preserving the relative order
of equal scores. -/
noncomputable def sortRanked (l : List Mem) : List Mem :=
  List.insertionSort byScoreDesc l

/-- `_combine_and_rank_memories`.  The `query` argument is accepted and
unused, exactly as in the source. -/
noncomputable def combineAndRankMemories (vectorMems recentMems : List Mem)
    (graphConcepts : List GraphConcept) (query : String) (lc : Bool) : List Mem :=
  sortRanked
    ((graphPhase lc graphConcepts (recentPhase lc recentMems (vectorPhase lc vectorMems))).map
      Prod.snd)

/-- `base_decay = 0.9 if not use_long_context else 0.95` -/
noncomputable def baseDecay (lc : Bool) : ℝ := if lc then 0.95 else 0.9

/-- `recent_boost = 1.5 if not use_long_context else 1.3` -/
noncomputable def recentBoost (lc : Bool) : ℝ := if lc then 1.3 else 1.5

/-- The recency-tier multiplier applied to `temporal_factor`:
`< 1 hour → recent_boost`, `< 24 hours → recent_boost * 0.8`,
`< 7 days → 1.1`, otherwise unchanged. -/
noncomputable def tierMult (lc : Bool) (td : ℝ) : ℝ :=
  if td < 1/24 then recentBoost lc
  else if td < 1 then recentBoost lc * 0.8
  else if td < 7 then 1.1
  else 1

/-- `temporal_factor = base_decay ** time_diff`, then the tier boost. -/
noncomputable def temporalFactor (lc : Bool) (td : ℝ) : ℝ :=
  baseDecay lc ^ td * tierMult lc td

/-- One iteration of the `_apply_temporal_scoring` loop.  `parseTs` models
`datetime.fromisoformat` (after the `Z` fix-up) composed with conversion to
days: it yields the memory's instant in days, or `none` when the block would
raise (unparseable timestamp), in which case the memory is left untouched;
an empty timestamp string is falsy and also skips the block. -/
noncomputable def decayOne (parseTs : String → Option ℝ) (now : ℝ) (lc : Bool)
    (m : Mem) : Mem :=
  if m.timestamp = "" then m
  else
    match parseTs m.timestamp with
    | none => m
    | some t =>
      let td := now - t
      let tf := temporalFactor lc td
      let cw : ℝ := if lc then 0.65 else 0.7
      { m with score := some (m.score.getD 0.5 * cw + tf * (1 - cw)),
               temporal_factor := some tf,
               time_diff_days := some td }

/-- `_apply_temporal_scoring`: re-score each memory, then re-sort descending
by the updated scores. -/
noncomputable def applyTemporalScoring (parseTs : String → Option ℝ) (now : ℝ)
    (lc : Bool) (mems : List Mem) : List Mem :=
  sortRanked (mems.map (decayOne parseTs now lc))

/-- The configuration values `retrieve_context` reads (with their defaults
from `config.py`). -/
structure Settings where
  vector_search_limit : ℕ := 20
  context_memory_limit : ℕ := 50
  enable_long_context : Bool := true
  graph_traverse_depth : ℕ := 4

/-- The cache key `f"context:{user_id}:{hash(query)}:{k}:{include_graph}"`;
`hash(query)` is modeled by the query itself. -/
structure CacheKey where
  user_id : String
  query : String
  k : ℕ
  include_graph : Bool
deriving DecidableEq

/-- The retrieval-result cache (`LRUCache` restricted to `context:` keys).
Eviction only removes entries, so it is not modeled. -/
abbrev Cache := List (CacheKey × List Mem)

/-- The defaulting and long-context widening at the top of
`retrieve_context`: `k = settings.VECTOR_SEARCH_LIMIT` when absent,
`use_long_context = settings.ENABLE_LONG_CONTEXT` when absent, and
`k = min(k * 2, settings.CONTEXT_MEMORY_LIMIT)` in long-context mode.
Returns the effective limit and the resolved flag. -/
def effectiveLimit (S : Settings) (kArg : Option ℕ) (lcArg : Option Bool) : ℕ × Bool :=
  let k0 := kArg.getD S.vector_search_limit
  let lc := lcArg.getD S.enable_long_context
  (if lc then min (k0 * 2) S.context_memory_limit else k0, lc)

/-- The cache-miss body of `retrieve_context`: similarity search (with the
0.65 certainty floor), per-concept graph fan-out when `include_graph`,
recency lookup, combination, temporal scoring, truncation to `k`. -/
noncomputable def missRetrieval (parseTs : String → Option ℝ) (now : ℝ)
    (query : String) (includeGraph : Bool) (lc : Bool) (k : ℕ)
    (rawVector rawRecent : Except Unit (List Item))
    (rawGraph : String → Except Unit (List GraphConcept)) : List Mem :=
  let vectorMems := searchMemories rawVector 0.65
  let graphConcepts :=
    if includeGraph then
      (extractQueryConcepts query).flatMap (fun c => findRelatedConcepts (rawGraph c))
    else []
  let recentMems := getRecentMemories rawRecent
  (applyTemporalScoring parseTs now lc
    (combineAndRankMemories vectorMems recentMems graphConcepts query lc)).take k

/-- `retrieve_context`, value level: on a cache hit the stored list is
returned as-is; on a miss the pipeline runs and the result is written to the
cache under the exact key. -/
noncomputable def retrieveContext (S : Settings) (parseTs : String → Option ℝ)
    (now : ℝ) (userId query : String) (kArg : Option ℕ) (includeGraph : Bool)
    (lcArg : Option Bool) (rawVector rawRecent : Except Unit (List Item))
    (rawGraph : String → Except Unit (List GraphConcept)) (cache : Cache) :
    List Mem × Cache :=
  let kl := effectiveLimit S kArg lcArg
  let key : CacheKey := ⟨userId, query, kl.1, includeGraph⟩
  match dictGet? key cache with
  | some v => (v, cache)
  | none =>
    let finalMems :=
      missRetrieval parseTs now query includeGraph kl.2 kl.1 rawVector rawRecent rawGraph
    (finalMems, dictSet key finalMems cache)

/-- Object-identity view of the engine: `heap` is the store of live memory
dicts (indices are references), and the cache holds references, because
`self.cache[cache_key] = final_memories` stores the list of dict objects
themselves, aliased by whatever `retrieve_context` returned. -/
structure EngineState where
  heap : List Mem
  cache : List (CacheKey × List ℕ)

/-- `retrieve_context`, reference level: a hit returns the cached references
untouched; a miss allocates the fresh result dicts on the heap and caches
their references. -/
noncomputable def retrieveHeap (S : Settings) (parseTs : String → Option ℝ)
    (now : ℝ) (userId query : String) (kArg : Option ℕ) (includeGraph : Bool)
    (lcArg : Option Bool) (rawVector rawRecent : Except Unit (List Item))
    (rawGraph : String → Except Unit (List GraphConcept)) (st : EngineState) :
    List ℕ × EngineState :=
  let kl := effectiveLimit S kArg lcArg
  let key : CacheKey := ⟨userId, query, kl.1, includeGraph⟩
  match dictGet? key st.cache with
  | some refs => (refs, st)
  | none =>
    let finalMems :=
      missRetrieval parseTs now query includeGraph kl.2 kl.1 rawVector rawRecent rawGraph
    let refs := (List.range finalMems.length).map (fun i => st.heap.length + i)
    (refs, ⟨st.heap ++ finalMems, dictSet key refs st.cache⟩)

/-- `_add_memory_connections`: for each returned memory, only when
`memory.get('id', '')` is truthy does it mutate the dict in place, attaching
`connections` (fetched per id, modeled by `connsFor`) and, when
`enhanced_metadata` is present, an `sdk_capabilities` payload. -/
def addMemoryConnections (connsFor : String → List String) (refs : List ℕ)
    (st : EngineState) : EngineState :=
  refs.foldl
    (fun s r =>
      let m := s.heap.getD r {}
      if (m.id.getD "") ≠ "" then
        let m1 := { m with connections := some (connsFor (m.id.getD "")) }
        let m2 :=
          if m1.enhanced_metadata.isSome then
            { m1 with sdk_capabilities := m1.enhanced_metadata }
          else m1
        { s with heap := s.heap.set r m2 }
      else s)
    st

/-- A concrete stand-in for `parseTs` in closed instances: the instants (in
days, relative to an epoch at 2024-01-01) of three fixed ISO timestamps, as
`datetime.fromisoformat` yields them; everything else is unparseable. -/
noncomputable def sampleParse : String → Option ℝ := fun s =>
  if s = "2024-01-01T00:00:00" then some 0
  else if s = "2024-01-01T12:00:00" then some (1/2)
  else if s = "2024-01-02T00:00:00" then some 1
  else none

/-- Well-formedness of the value-level cache: every stored list respects the
limit recorded in its own key. -/
def CacheWF (c : Cache) : Prop :=
  ∀ p ∈ c, p.2.length ≤ p.1.k

/-- Well-formedness of the object store: no memory dict produced by the
retrieval pipeline carries an `id` key (neither `search_memories` nor
`get_recent_memories` emits one). -/
def HeapWF (st : EngineState) : Prop :=
  ∀ m ∈ st.heap, m.id = none

/-- A concrete similarity hit used in closed instances. -/
noncomputable def sampleVecMem : Mem :=
  { content := "alpha beta", timestamp := "t1", entities := ["Paris"],
    keywords := ["trip"], certainty := some (1/2) }

/-- The same memory as it appears among the recency hits (no certainty). -/
def sampleRecMem : Mem :=
  { content := "alpha beta", timestamp := "t1" }

/-- A concrete graph concept matching `sampleVecMem`'s entity list. -/
noncomputable def sampleGC : GraphConcept :=
  { concept := "paris", strength := 1/2, distance := 1 }

theorem mem_map_fst_dictSet {κ β : Type} [DecidableEq κ] {k : κ} {v : β}
    {d : List (κ × β)} {w : κ} (h : w ∈ (dictSet k v d).map Prod.fst) :
    w = k ∨ w ∈ d.map Prod.fst := by
  induction d with
  | nil => simpa [dictSet] using h
  | cons p rest ih =>
    by_cases hp : p.1 = k
    · simp only [dictSet, if_pos hp, List.map_cons, List.mem_cons] at h
      rcases h with h | h
      · exact Or.inl h
      · exact Or.inr (List.mem_cons_of_mem _ h)
    · simp only [dictSet, if_neg hp, List.map_cons, List.mem_cons] at h
      rcases h with h | h
      · exact Or.inr (by simp [h])
      · rcases ih h with h' | h'
        · exact Or.inl h'
        · exact Or.inr (List.mem_cons_of_mem _ h')

theorem mem_keys_foldl_dictSet {α : Type} (f : ℕ × α → ℚ) [DecidableEq α] :
    ∀ (l : List (ℕ × α)) (acc : List (α × ℚ)) (w : α),
      w ∈ ((l.foldl (fun acc ic => dictSet ic.2 (f ic) acc) acc).map Prod.fst) →
      w ∈ acc.map Prod.fst ∨ w ∈ l.map Prod.snd
  | [], acc, w, h => Or.inl h
  | ic :: rest, acc, w, h => by
    rcases mem_keys_foldl_dictSet f rest _ w h with h' | h'
    · rcases mem_map_fst_dictSet h' with h'' | h''
      · exact Or.inr (by simp [h''])
      · exact Or.inl h''
    · exact Or.inr (List.mem_cons_of_mem _ h')

theorem mem_conceptScores_keys {q w : String}
    (h : w ∈ (conceptScores q).map Prod.fst) : w ∈ candidateConcepts q := by
  simp only [conceptScores] at h
  rcases mem_keys_foldl_dictSet _ _ _ _ h with h' | h'
  · simp at h'
  · simpa [List.enum_map_snd] using h'

theorem extract_subset_candidates {q w : String}
    (h : w ∈ extractQueryConcepts q) : w ∈ candidateConcepts q := by
  simp only [extractQueryConcepts, List.mem_map] at h
  obtain ⟨p, hp, rfl⟩ := h
  have hp2 : p ∈ sortPairsDesc (conceptScores q) := List.take_subset _ _ hp
  have hp3 : p ∈ conceptScores q := by
    have := List.perm_insertionSort (fun a b : String × ℚ => b.2 ≤ a.2) (conceptScores q)
    exact this.mem_iff.mp hp2
  exact mem_conceptScores_keys (List.mem_map_of_mem Prod.fst hp3)

/-- Claim C4 is false on the code: in `_extract_query_concepts`, "fox" is an
alphabetic token of length 3 that is not a stop word, yet the candidate
filter requires `len(word) > 3`, so extraction on
"the quick quick fox the fox" never returns "fox". -/
theorem extract_fox_dropped :
    ("fox" ∈ findWords "the quick quick fox the fox"
      ∧ "fox" ∉ stopWords ∧ 3 ≤ "fox".length)
    ∧ "fox" ∉ extractQueryConcepts "the quick quick fox the fox" := by
  refine ⟨by decide, fun h => ?_⟩
  have h2 := extract_subset_candidates h
  revert h2
  decide

/-- Claim C4 (amended): a token is a candidate term exactly when it is an
extracted word, not a stop word, and has length strictly greater than 3;
on "the quick quick fox the fox" extraction therefore returns exactly
["quick"] (and not "fox", whose length is only 3). -/
theorem extract_candidates_strict :
    (∀ q w, w ∈ candidateConcepts q ↔
      (w ∈ findWords q ∧ w ∉ stopWords ∧ 3 < w.length))
    ∧ extractQueryConcepts "the quick quick fox the fox" = ["quick"] := by
  constructor
  · intro q w
    simp [candidateConcepts, List.mem_filter]
  · rfl

theorem baseDecay_pos (lc : Bool) : 0 < baseDecay lc := by
  cases lc <;> norm_num [baseDecay]

theorem baseDecay_le_one (lc : Bool) : baseDecay lc ≤ 1 := by
  cases lc <;> norm_num [baseDecay]

theorem tierMult_pos (lc : Bool) (td : ℝ) : 0 < tierMult lc td := by
  unfold tierMult recentBoost
  cases lc <;> split_ifs <;> norm_num

theorem tierMult_antitone_normal {a b : ℝ} (h : a ≤ b) :
    tierMult false b ≤ tierMult false a := by
  unfold tierMult recentBoost
  split_ifs <;> first | contradiction | linarith

theorem temporalFactor_nonneg (lc : Bool) (td : ℝ) : 0 ≤ temporalFactor lc td :=
  mul_nonneg (Real.rpow_nonneg (le_of_lt (baseDecay_pos lc)) td)
    (le_of_lt (tierMult_pos lc td))

theorem temporalFactor_antitone_normal {a b : ℝ} (h : a ≤ b) :
    temporalFactor false b ≤ temporalFactor false a :=
  mul_le_mul
    (Real.rpow_le_rpow_of_exponent_ge (baseDecay_pos false) (baseDecay_le_one false) h)
    (tierMult_antitone_normal h)
    (le_of_lt (tierMult_pos false b))
    (Real.rpow_nonneg (le_of_lt (baseDecay_pos false)) a)

/-- Claim C2 (amended): with `use_long_context` false, for two candidates
identical except for age (equal raw combined score, both timestamps
parseable), the younger one's final score after temporal decay is at least
the older one's.  (In long-context mode this fails at the 24-hour tier
boundary, see the counterexample.) -/
theorem decay_monotone_normal (parseTs : String → Option ℝ) (now : ℝ)
    (m1 m2 : Mem) (t1 t2 s : ℝ)
    (hne1 : m1.timestamp ≠ "") (hne2 : m2.timestamp ≠ "")
    (hp1 : parseTs m1.timestamp = some t1) (hp2 : parseTs m2.timestamp = some t2)
    (hs1 : m1.score = some s) (hs2 : m2.score = some s)
    (ht : t2 ≤ t1) :
    (decayOne parseTs now false m2).score.getD 0
      ≤ (decayOne parseTs now false m1).score.getD 0 := by
  have key := temporalFactor_antitone_normal (a := now - t1) (b := now - t2) (by linarith)
  simp only [decayOne, if_neg hne1, if_neg hne2, hp1, hp2, hs1, hs2]
  simp only [Option.getD_some, Bool.false_eq_true, if_false]
  nlinarith [key]

/-- Closed instance of `decay_monotone_normal`: a memory from the epoch
instant 1 (one day younger) scores at least a memory from instant 0 under
normal-mode decay at `now = 1`. -/
theorem decay_monotone_normal_inst :
    sampleParse "2024-01-02T00:00:00" = some 1
    ∧ sampleParse "2024-01-01T00:00:00" = some 0
    ∧ (decayOne sampleParse 1 false { timestamp := "2024-01-01T00:00:00", score := some 1 }).score.getD 0
        ≤ (decayOne sampleParse 1 false { timestamp := "2024-01-02T00:00:00", score := some 1 }).score.getD 0 := by
  refine ⟨by simp [sampleParse], by simp [sampleParse], ?_⟩
  exact decay_monotone_normal sampleParse 1
    { timestamp := "2024-01-02T00:00:00", score := some 1 }
    { timestamp := "2024-01-01T00:00:00", score := some 1 }
    1 0 1 (by simp) (by simp) (by simp [sampleParse]) (by simp [sampleParse])
    rfl rfl (by norm_num)

/-- Claim C2 is false on the code in long-context mode: at `now = 1` day, a
candidate aged half a day (tier multiplier `1.3 * 0.8 = 1.04`) scores
strictly below an otherwise-identical candidate aged a full day (tier
multiplier `1.1`), because `0.95 ** 0.5 * 1.04 < 0.95 * 1.1`. -/
theorem decay_not_monotone_long :
    sampleParse "2024-01-01T12:00:00" = some (1/2)
    ∧ sampleParse "2024-01-01T00:00:00" = some 0
    ∧ (decayOne sampleParse 1 true { timestamp := "2024-01-01T12:00:00", score := some 1 }).score.getD 0
        < (decayOne sampleParse 1 true { timestamp := "2024-01-01T00:00:00", score := some 1 }).score.getD 0 := by
  have hpY : sampleParse "2024-01-01T12:00:00" = some (1/2) := by
    unfold sampleParse
    rw [if_neg (by decide), if_pos rfl]
  have hpO : sampleParse "2024-01-01T00:00:00" = some 0 := by
    unfold sampleParse
    rw [if_pos rfl]
  refine ⟨hpY, hpO, ?_⟩
  have score_eq : ∀ (ts : String) (t : ℝ), ts ≠ "" → sampleParse ts = some t →
      (decayOne sampleParse 1 true { timestamp := ts, score := some 1 }).score.getD 0
        = 1 * 0.65 + temporalFactor true (1 - t) * (1 - 0.65) := by
    intro ts t hne hp
    simp only [decayOne, if_neg hne, hp, Option.getD_some]
    norm_num
  rw [score_eq _ _ (by decide) hpY, score_eq _ _ (by decide) hpO]
  have hx : ((1:ℝ) - 1/2) = 1/2 := by norm_num
  have hy : ((1:ℝ) - 0) = 1 := by norm_num
  rw [hx, hy]
  have tfY : temporalFactor true ((1:ℝ)/2) = 0.95 ^ ((1:ℝ)/2) * (1.3 * 0.8) := by
    unfold temporalFactor tierMult recentBoost baseDecay
    rw [if_neg (by norm_num : ¬ ((1:ℝ)/2 < 1/24)), if_pos (by norm_num : ((1:ℝ)/2 < 1)),
      if_pos rfl, if_pos rfl]
  have tfO : temporalFactor true (1:ℝ) = 0.95 * 1.1 := by
    unfold temporalFactor tierMult recentBoost baseDecay
    rw [if_neg (by norm_num : ¬ ((1:ℝ) < 1/24)), if_neg (by norm_num : ¬ ((1:ℝ) < 1)),
      if_pos (by norm_num : ((1:ℝ) < 7)), if_pos rfl, Real.rpow_one]
  rw [tfY, tfO]
  have h1 : (0.95:ℝ) ^ ((1:ℝ)/2) ≤ 1 :=
    Real.rpow_le_one (by norm_num) (by norm_num) (by norm_num)
  nlinarith [h1]

/-- Claim C8: a candidate aged exactly 30 minutes (1/48 day) falls in the
under-1-hour tier and its temporal factor is multiplied by the recent
boost; a candidate aged 25 hours (25/24 days) falls in the under-7-day
tier, multiplier 1.1, and not the under-24-hour tier. -/
theorem tier_boundary_cases (lc : Bool) :
    tierMult lc (1/48) = recentBoost lc
    ∧ tierMult lc (25/24) = 1.1
    ∧ tierMult lc (25/24) ≠ recentBoost lc * 0.8
    ∧ temporalFactor lc (1/48) = baseDecay lc ^ ((1:ℝ)/48) * recentBoost lc
    ∧ temporalFactor lc (25/24) = baseDecay lc ^ ((25:ℝ)/24) * 1.1 := by
  unfold temporalFactor tierMult recentBoost baseDecay
  cases lc <;> norm_num

theorem dictGet?_dictSet_self {κ β : Type} [DecidableEq κ] (k : κ) (v : β)
    (d : List (κ × β)) : dictGet? k (dictSet k v d) = some v := by
  induction d with
  | nil => simp [dictSet, dictGet?]
  | cons p rest ih =>
    by_cases hp : p.1 = k
    · simp [dictSet, hp, dictGet?]
    · simp [dictSet, hp, dictGet?, ih]

theorem dictGet?_dictSet_ne {κ β : Type} [DecidableEq κ] {k k' : κ} (v : β)
    (d : List (κ × β)) (h : k' ≠ k) :
    dictGet? k' (dictSet k v d) = dictGet? k' d := by
  induction d with
  | nil => simp [dictSet, dictGet?, Ne.symm h]
  | cons p rest ih =>
    by_cases hp : p.1 = k
    · simp only [dictSet, if_pos hp, dictGet?]
      rw [if_neg (fun hh => h hh.symm), if_neg (by rw [hp]; exact fun hh => h hh.symm)]
    · simp only [dictSet, if_neg hp, dictGet?]
      by_cases hq : p.1 = k'
      · simp [hq]
      · simp [hq, ih]

theorem dictGet?_append {κ β : Type} [DecidableEq κ] (k : κ) (a b : List (κ × β)) :
    dictGet? k (a ++ b) =
      match dictGet? k a with
      | some v => some v
      | none => dictGet? k b := by
  induction a with
  | nil => simp [dictGet?]
  | cons p rest ih =>
    by_cases hp : p.1 = k
    · simp [dictGet?, hp]
    · simp [dictGet?, hp, ih]

theorem dictGet?_mem {κ β : Type} [DecidableEq κ] {k : κ} {v : β}
    {d : List (κ × β)} (h : dictGet? k d = some v) : (k, v) ∈ d := by
  induction d with
  | nil => simp [dictGet?] at h
  | cons p rest ih =>
    by_cases hp : p.1 = k
    · have hv : p.2 = v := by simpa [dictGet?, if_pos hp] using h
      have hpv : p = (k, v) := Prod.ext hp hv
      rw [← hpv]
      exact List.mem_cons_self _ _
    · simp only [dictGet?, if_neg hp] at h
      exact List.mem_cons_of_mem _ (ih h)

theorem dictGet?_map_value {κ β : Type} [DecidableEq κ] (k : κ) (f : β → β)
    (d : List (κ × β)) :
    dictGet? k (d.map (fun p => (p.1, f p.2))) = (dictGet? k d).map f := by
  induction d with
  | nil => simp [dictGet?]
  | cons p rest ih =>
    by_cases hp : p.1 = k
    · simp [dictGet?, hp]
    · simp [dictGet?, hp, ih]

theorem dictGet?_isSome_of_mem_fst {κ β : Type} [DecidableEq κ] {k : κ}
    {d : List (κ × β)} (h : k ∈ d.map Prod.fst) : (dictGet? k d).isSome := by
  induction d with
  | nil => simp at h
  | cons p rest ih =>
    by_cases hp : p.1 = k
    · simp [dictGet?, hp]
    · simp only [List.map_cons, List.mem_cons] at h
      rcases h with h | h
      · exact absurd h.symm hp
      · simp [dictGet?, hp, ih h]

theorem bumpScore_fst (k : String) (d : ℝ) (A : List (String × Mem)) :
    (bumpScore k d A).map Prod.fst = A.map Prod.fst := by
  induction A with
  | nil => rfl
  | cons p rest ih =>
    by_cases hp : p.1 = k
    · simp [bumpScore, hp]
    · simp [bumpScore, hp, ih]

theorem dictGet?_bumpScore_self (k : String) (d : ℝ) (A : List (String × Mem)) :
    dictGet? k (bumpScore k d A)
      = (dictGet? k A).map (fun m => { m with score := some (m.score.getD 0 + d) }) := by
  induction A with
  | nil => rfl
  | cons p rest ih =>
    by_cases hp : p.1 = k
    · simp [bumpScore, hp, dictGet?]
    · simp [bumpScore, hp, dictGet?, ih]

theorem dictGet?_bumpScore_ne {k k' : String} (d : ℝ) (A : List (String × Mem))
    (h : k' ≠ k) : dictGet? k' (bumpScore k d A) = dictGet? k' A := by
  induction A with
  | nil => rfl
  | cons p rest ih =>
    by_cases hp : p.1 = k
    · simp [bumpScore, hp, dictGet?, Ne.symm h, h]
    · by_cases hq : p.1 = k'
      · simp [bumpScore, hp, dictGet?, hq, Ne.symm h, h]
      · simp [bumpScore, hp, dictGet?, hq, Ne.symm h, h, ih]

theorem staticView_graphBoost (lc : Bool) (g : GraphConcept) (m : Mem) :
    staticView (graphBoost lc g m) = staticView m := by
  unfold graphBoost
  split_ifs <;> rfl

theorem memKey_graphBoost (lc : Bool) (g : GraphConcept) (m : Mem) :
    memKey (graphBoost lc g m) = memKey m := by
  unfold graphBoost
  split_ifs <;> rfl

theorem matchCount_static {m1 m2 : Mem} (h : staticView m1 = staticView m2)
    (g : GraphConcept) : matchCount g m1 = matchCount g m2 := by
  unfold staticView at h
  unfold matchCount
  rw [show m1.content = m2.content from congrArg (fun t => t.1) h,
    show m1.entities = m2.entities from congrArg (fun t => t.2.2.1) h,
    show m1.keywords = m2.keywords from congrArg (fun t => t.2.2.2) h]

theorem graphBoost_score_some (lc : Bool) (g : GraphConcept) (m : Mem) (s : ℝ)
    (hs : m.score = some s) :
    (graphBoost lc g m).score
      = some (s + g.strength * graphWeight lc * (matchCount g m : ℝ)) := by
  unfold graphBoost
  split_ifs with h
  · simp [hs]
  · have h0 : matchCount g m = 0 := by omega
    simp [hs, h0]

theorem applyBoosts_spec (lc : Bool) :
    ∀ (graphConcepts : List GraphConcept) (m : Mem) (s : ℝ), m.score = some s →
      (applyBoosts lc graphConcepts m).score
        = some (s + (graphConcepts.map
            (fun g => g.strength * graphWeight lc * (matchCount g m : ℝ))).sum)
      ∧ staticView (applyBoosts lc graphConcepts m) = staticView m
  | [], m, s, hs => by simp [applyBoosts, hs]
  | g :: rest, m, s, hs => by
    have h1 := graphBoost_score_some lc g m s hs
    have h2 := staticView_graphBoost lc g m
    have hstep : applyBoosts lc (g :: rest) m = applyBoosts lc rest (graphBoost lc g m) := rfl
    have ih := applyBoosts_spec lc rest (graphBoost lc g m) _ h1
    refine ⟨?_, by rw [hstep, ih.2, h2]⟩
    rw [hstep, ih.1]
    have hmc : rest.map (fun g' => g'.strength * graphWeight lc * (matchCount g' (graphBoost lc g m) : ℝ))
        = rest.map (fun g' => g'.strength * graphWeight lc * (matchCount g' m : ℝ)) := by
      apply List.map_congr_left
      intro g' _
      rw [matchCount_static h2 g']
    rw [hmc]
    simp only [List.map_cons, List.sum_cons]
    congr 1
    ring

theorem dictGet?_graphPhase (lc : Bool) (graphConcepts : List GraphConcept)
    (A : List (String × Mem)) (k : String) :
    dictGet? k (graphPhase lc graphConcepts A)
      = (dictGet? k A).map (applyBoosts lc graphConcepts) := by
  induction graphConcepts generalizing A with
  | nil =>
    simp only [graphPhase, List.foldl_nil]
    cases dictGet? k A <;> simp [applyBoosts]
  | cons g rest ih =>
    have hstep : graphPhase lc (g :: rest) A
        = graphPhase lc rest (A.map (fun p => (p.1, graphBoost lc g p.2))) := rfl
    rw [hstep, ih, dictGet?_map_value]
    cases dictGet? k A <;> simp [applyBoosts]

theorem memKey_vecEntry (lc : Bool) (m : Mem) : memKey (vecEntry lc m) = memKey m := rfl

theorem memKey_recEntry (lc : Bool) (m : Mem) : memKey (recEntry lc m) = memKey m := rfl

theorem dictGet?_vectorFold_ne (lc : Bool) (l : List Mem) (k : String)
    (h : ∀ m' ∈ l, memKey m' ≠ k) (acc : List (String × Mem)) :
    dictGet? k (l.foldl (fun acc m => dictSet (memKey m) (vecEntry lc m) acc) acc)
      = dictGet? k acc := by
  induction l generalizing acc with
  | nil => rfl
  | cons x xs ih =>
    rw [List.foldl_cons, ih (fun m' hm => h m' (List.mem_cons_of_mem _ hm)),
      dictGet?_dictSet_ne _ _ (Ne.symm (h x (List.mem_cons_self _ _)))]

theorem dictGet?_vectorPhase (lc : Bool) (v1 v2 : List Mem) (m : Mem)
    (hne : ∀ m' ∈ v2, memKey m' ≠ memKey m) :
    dictGet? (memKey m) (vectorPhase lc (v1 ++ m :: v2)) = some (vecEntry lc m) := by
  unfold vectorPhase
  rw [List.foldl_append, List.foldl_cons, dictGet?_vectorFold_ne lc v2 _ hne,
    dictGet?_dictSet_self]

theorem recentPhase_cons (lc : Bool) (x : Mem) (l : List Mem)
    (acc : List (String × Mem)) :
    recentPhase lc (x :: l) acc
      = recentPhase lc l
          (if (dictGet? (memKey x) acc).isSome then
            bumpScore (memKey x) (temporalWeight lc) acc
          else acc ++ [(memKey x, recEntry lc x)]) := rfl

theorem recentPhase_append (lc : Bool) (a b : List Mem) (acc : List (String × Mem)) :
    recentPhase lc (a ++ b) acc = recentPhase lc b (recentPhase lc a acc) := by
  unfold recentPhase
  exact List.foldl_append _ _ _ _

theorem dictGet?_recentStep_ne (lc : Bool) (x : Mem) (acc : List (String × Mem))
    (k : String) (h : memKey x ≠ k) :
    dictGet? k (if (dictGet? (memKey x) acc).isSome then
        bumpScore (memKey x) (temporalWeight lc) acc
      else acc ++ [(memKey x, recEntry lc x)]) = dictGet? k acc := by
  split_ifs with hs
  · exact dictGet?_bumpScore_ne _ _ (Ne.symm h)
  · rw [dictGet?_append]
    cases hg : dictGet? k acc with
    | some v => rfl
    | none => simp [dictGet?, h]

theorem dictGet?_recentPhase_ne (lc : Bool) (l : List Mem) (k : String)
    (h : ∀ m' ∈ l, memKey m' ≠ k) (acc : List (String × Mem)) :
    dictGet? k (recentPhase lc l acc) = dictGet? k acc := by
  induction l generalizing acc with
  | nil => rfl
  | cons x xs ih =>
    rw [recentPhase_cons, ih (fun m' hm => h m' (List.mem_cons_of_mem _ hm)),
      dictGet?_recentStep_ne lc x acc k (h x (List.mem_cons_self _ _))]

theorem dictGet?_recentPhase (lc : Bool) (r1 r2 : List Mem) (mr : Mem) (k : String)
    (acc : List (String × Mem)) (v : Mem)
    (hk : memKey mr = k)
    (h1 : ∀ m' ∈ r1, memKey m' ≠ k) (h2 : ∀ m' ∈ r2, memKey m' ≠ k)
    (hv : dictGet? k acc = some v) :
    dictGet? k (recentPhase lc (r1 ++ mr :: r2) acc)
      = some { v with score := some (v.score.getD 0 + temporalWeight lc) } := by
  rw [recentPhase_append, recentPhase_cons]
  have hacc1 : dictGet? k (recentPhase lc r1 acc) = some v := by
    rw [dictGet?_recentPhase_ne lc r1 k h1 acc, hv]
  rw [dictGet?_recentPhase_ne lc r2 k h2]
  rw [hk, hacc1]
  simp only [Option.isSome_some, if_pos]
  rw [dictGet?_bumpScore_self, hacc1]
  rfl

theorem memKey_static {m1 m2 : Mem} (h : staticView m1 = staticView m2) :
    memKey m1 = memKey m2 := by
  unfold staticView at h
  unfold memKey
  rw [show m1.content = m2.content from congrArg (fun t => t.1) h,
    show m1.timestamp = m2.timestamp from congrArg (fun t => t.2.1) h]

/-- Claim C6: a candidate present (once) in both the similarity hits and the
recency hits enters the combiner output with score
`semantic_weight * certainty + temporal_weight`, plus, for each graph
concept, `strength * graph_weight * match_count` where `match_count` adds 3
for an entity match, 1 for a keyword match and 2 for a content substring
match. -/
theorem combine_additive_merge (vectorMems recentMems : List Mem)
    (graphConcepts : List GraphConcept) (query : String) (lc : Bool)
    (v1 v2 r1 r2 : List Mem) (m mr : Mem) (c : ℝ)
    (hv : vectorMems = v1 ++ m :: v2)
    (hc : m.certainty = some c)
    (hvne : ∀ m' ∈ v2, memKey m' ≠ memKey m)
    (hr : recentMems = r1 ++ mr :: r2)
    (hrk : memKey mr = memKey m)
    (hr1 : ∀ m' ∈ r1, memKey m' ≠ memKey m)
    (hr2 : ∀ m' ∈ r2, memKey m' ≠ memKey m) :
    ∃ m' ∈ combineAndRankMemories vectorMems recentMems graphConcepts query lc,
      memKey m' = memKey m ∧
      m'.score = some (semanticWeight lc * c + temporalWeight lc
        + (graphConcepts.map
            (fun g => g.strength * graphWeight lc * (matchCount g m : ℝ))).sum) := by
  subst hv
  subst hr
  have hA1 := dictGet?_vectorPhase lc v1 v2 m hvne
  have hA2 := dictGet?_recentPhase lc r1 r2 mr (memKey m)
    (vectorPhase lc (v1 ++ m :: v2)) (vecEntry lc m) hrk hr1 hr2 hA1
  have hA3 := dictGet?_graphPhase lc graphConcepts
    (recentPhase lc (r1 ++ mr :: r2) (vectorPhase lc (v1 ++ m :: v2))) (memKey m)
  rw [hA2] at hA3
  rw [Option.map_some'] at hA3
  set bumped : Mem :=
    { vecEntry lc m with
      score := some ((vecEntry lc m).score.getD 0 + temporalWeight lc) } with hbdef
  have hbscore : bumped.score = some (c * semanticWeight lc + temporalWeight lc) := by
    simp [hbdef, vecEntry, hc]
  have hbstatic : staticView bumped = staticView m := rfl
  have hspec := applyBoosts_spec lc graphConcepts bumped _ hbscore
  have hmc : graphConcepts.map
      (fun g => g.strength * graphWeight lc * (matchCount g bumped : ℝ))
      = graphConcepts.map
        (fun g => g.strength * graphWeight lc * (matchCount g m : ℝ)) := by
    apply List.map_congr_left
    intro g _
    rw [matchCount_static hbstatic g]
  refine ⟨applyBoosts lc graphConcepts bumped, ?_, ?_, ?_⟩
  · unfold combineAndRankMemories sortRanked
    rw [List.mem_insertionSort]
    exact List.mem_map_of_mem _ (dictGet?_mem hA3)
  · exact memKey_static hspec.2
  · rw [hspec.1, hmc]
    congr 1
    ring

/-- Closed instance of `combine_additive_merge`: one similarity hit with
certainty 1/2, the same memory as the sole recency hit, and one graph
concept matching its entity list. -/
theorem combine_additive_merge_inst :
    ∃ m' ∈ combineAndRankMemories [sampleVecMem] [sampleRecMem] [sampleGC] "q" false,
      memKey m' = memKey sampleVecMem ∧
      m'.score = some (semanticWeight false * (1/2) + temporalWeight false
        + ([sampleGC].map
            (fun g => g.strength * graphWeight false * (matchCount g sampleVecMem : ℝ))).sum) :=
  combine_additive_merge _ _ _ "q" false [] [] [] [] sampleVecMem sampleRecMem
    (1/2) rfl rfl (by simp) rfl (by decide) (by simp) (by simp)

theorem mem_fst_dictSet_iff {κ β : Type} [DecidableEq κ] (k k' : κ) (v : β)
    (d : List (κ × β)) :
    k' ∈ (dictSet k v d).map Prod.fst ↔ k' = k ∨ k' ∈ d.map Prod.fst := by
  constructor
  · exact mem_map_fst_dictSet
  · intro h
    induction d with
    | nil => simpa [dictSet] using h
    | cons p rest ih =>
      by_cases hp : p.1 = k
      · rcases h with h | h
        · simp [dictSet, hp, h]
        · simp only [List.map_cons, List.mem_cons] at h
          rcases h with h | h
          · simp [dictSet, hp, h.symm ▸ hp]
          · simp [dictSet, hp, h]
      · rcases h with h | h
        · simp [dictSet, hp, ih (Or.inl h)]
        · simp only [List.map_cons, List.mem_cons] at h
          rcases h with h | h
          · simp [dictSet, hp, h]
          · simp [dictSet, hp, ih (Or.inr h)]

theorem vectorFold_keys (lc : Bool) (l : List Mem) (acc : List (String × Mem))
    (k : String) :
    k ∈ ((l.foldl (fun acc m => dictSet (memKey m) (vecEntry lc m) acc) acc).map
        Prod.fst)
      ↔ k ∈ acc.map Prod.fst ∨ ∃ m ∈ l, memKey m = k := by
  induction l generalizing acc with
  | nil => simp
  | cons x xs ih =>
    rw [List.foldl_cons, ih, mem_fst_dictSet_iff]
    constructor
    · rintro ((h | h) | h)
      · exact Or.inr ⟨x, List.mem_cons_self _ _, h.symm⟩
      · exact Or.inl h
      · obtain ⟨m0, hm0, hk⟩ := h
        exact Or.inr ⟨m0, List.mem_cons_of_mem _ hm0, hk⟩
    · rintro (h | ⟨m0, hm0, hk⟩)
      · exact Or.inl (Or.inr h)
      · rcases List.mem_cons.mp hm0 with rfl | hm0
        · exact Or.inl (Or.inl hk.symm)
        · exact Or.inr ⟨m0, hm0, hk⟩

theorem recentPhase_keys (lc : Bool) (l : List Mem) (acc : List (String × Mem))
    (k : String) :
    k ∈ ((recentPhase lc l acc).map Prod.fst)
      ↔ k ∈ acc.map Prod.fst ∨ ∃ m ∈ l, memKey m = k := by
  induction l generalizing acc with
  | nil => simp [recentPhase]
  | cons x xs ih =>
    rw [recentPhase_cons, ih]
    by_cases hs : (dictGet? (memKey x) acc).isSome
    · rw [if_pos hs, bumpScore_fst]
      constructor
      · rintro (h | h)
        · exact Or.inl h
        · obtain ⟨m0, hm0, hk⟩ := h
          exact Or.inr ⟨m0, List.mem_cons_of_mem _ hm0, hk⟩
      · rintro (h | ⟨m0, hm0, hk⟩)
        · exact Or.inl h
        · rcases List.mem_cons.mp hm0 with rfl | hm0
          · subst hk
            exact Or.inl (List.mem_map_of_mem Prod.fst
              (dictGet?_mem (Option.isSome_iff_exists.mp hs).choose_spec))
          · exact Or.inr ⟨m0, hm0, hk⟩
    · rw [if_neg hs]
      simp only [List.map_append, List.map_cons, List.map_nil, List.mem_append,
        List.mem_cons, List.not_mem_nil, or_false]
      constructor
      · rintro ((h | h) | h)
        · exact Or.inl h
        · exact Or.inr ⟨x, Or.inl rfl, h.symm⟩
        · obtain ⟨m0, hm0, hk⟩ := h
          exact Or.inr ⟨m0, Or.inr hm0, hk⟩
      · rintro (h | ⟨m0, hm0, hk⟩)
        · exact Or.inl (Or.inl h)
        · rcases hm0 with rfl | hm0
          · exact Or.inl (Or.inr hk.symm)
          · exact Or.inr ⟨m0, hm0, hk⟩

theorem graphPhase_fst (lc : Bool) (graphConcepts : List GraphConcept)
    (A : List (String × Mem)) :
    (graphPhase lc graphConcepts A).map Prod.fst = A.map Prod.fst := by
  induction graphConcepts generalizing A with
  | nil => rfl
  | cons g rest ih =>
    have hstep : graphPhase lc (g :: rest) A
        = graphPhase lc rest (A.map (fun p => (p.1, graphBoost lc g p.2))) := rfl
    rw [hstep, ih, List.map_map]
    rfl

theorem keysOk_dictSet {d : List (String × Mem)} {k : String} {v : Mem}
    (hd : ∀ p ∈ d, memKey p.2 = p.1) (hv : memKey v = k) :
    ∀ p ∈ dictSet k v d, memKey p.2 = p.1 := by
  induction d with
  | nil => simp [dictSet, hv]
  | cons q rest ih =>
    by_cases hq : q.1 = k
    · intro p hp
      rcases List.mem_cons.mp (by simpa [dictSet, hq] using hp) with rfl | hp'
      · exact hv
      · exact hd p (List.mem_cons_of_mem _ hp')
    · intro p hp
      rcases List.mem_cons.mp (by simpa [dictSet, hq] using hp) with hpq | hp'
      · rw [hpq]
        exact hd q (List.mem_cons_self _ _)
      · exact ih (fun r hr => hd r (List.mem_cons_of_mem _ hr)) p hp'

theorem keysOk_vectorFold (lc : Bool) (l : List Mem) (acc : List (String × Mem))
    (hacc : ∀ p ∈ acc, memKey p.2 = p.1) :
    ∀ p ∈ l.foldl (fun acc m => dictSet (memKey m) (vecEntry lc m) acc) acc,
      memKey p.2 = p.1 := by
  induction l generalizing acc with
  | nil => exact hacc
  | cons x xs ih =>
    rw [List.foldl_cons]
    exact ih _ (keysOk_dictSet hacc (memKey_vecEntry lc x))

theorem keysOk_bumpScore {A : List (String × Mem)} (k : String) (d : ℝ)
    (hA : ∀ p ∈ A, memKey p.2 = p.1) :
    ∀ p ∈ bumpScore k d A, memKey p.2 = p.1 := by
  induction A with
  | nil => simpa [bumpScore] using hA
  | cons q rest ih =>
    by_cases hq : q.1 = k
    · intro p hp
      rcases List.mem_cons.mp (by simpa [bumpScore, hq] using hp) with hpq | hp'
      · rw [hpq]
        exact hq ▸ hA q (List.mem_cons_self _ _)
      · exact hA p (List.mem_cons_of_mem _ hp')
    · intro p hp
      rcases List.mem_cons.mp (by simpa [bumpScore, hq] using hp) with hpq | hp'
      · rw [hpq]
        exact hA q (List.mem_cons_self _ _)
      · exact ih (fun r hr => hA r (List.mem_cons_of_mem _ hr)) p hp'

theorem keysOk_recentPhase (lc : Bool) (l : List Mem) (acc : List (String × Mem))
    (hacc : ∀ p ∈ acc, memKey p.2 = p.1) :
    ∀ p ∈ recentPhase lc l acc, memKey p.2 = p.1 := by
  induction l generalizing acc with
  | nil => exact hacc
  | cons x xs ih =>
    rw [recentPhase_cons]
    split_ifs with hs
    · exact ih _ (keysOk_bumpScore _ _ hacc)
    · refine ih _ ?_
      intro p hp
      rcases List.mem_append.mp hp with hp' | hp'
      · exact hacc p hp'
      · rw [List.mem_singleton.mp hp']
        exact memKey_recEntry lc x

theorem keysOk_graphPhase (lc : Bool) (graphConcepts : List GraphConcept)
    (A : List (String × Mem)) (hA : ∀ p ∈ A, memKey p.2 = p.1) :
    ∀ p ∈ graphPhase lc graphConcepts A, memKey p.2 = p.1 := by
  induction graphConcepts generalizing A with
  | nil => exact hA
  | cons g rest ih =>
    have hstep : graphPhase lc (g :: rest) A
        = graphPhase lc rest (A.map (fun p => (p.1, graphBoost lc g p.2))) := rfl
    rw [hstep]
    refine ih _ ?_
    intro p hp
    obtain ⟨q, hq, rfl⟩ := List.mem_map.mp hp
    simpa [memKey_graphBoost] using hA q hq

/-- Claim C10: the candidate set produced by `_combine_and_rank_memories` is
exactly the union, under the timestamp-plus-content-prefix key, of the
similarity hits and the recency hits; graph concepts only adjust scores of
existing candidates and never introduce a new one. -/
theorem combine_candidates_union (vectorMems recentMems : List Mem)
    (graphConcepts : List GraphConcept) (query : String) (lc : Bool) (k : String) :
    (∃ m' ∈ combineAndRankMemories vectorMems recentMems graphConcepts query lc,
        memKey m' = k)
      ↔ (∃ m ∈ vectorMems, memKey m = k) ∨ (∃ m ∈ recentMems, memKey m = k) := by
  have hok : ∀ p ∈ graphPhase lc graphConcepts
      (recentPhase lc recentMems (vectorPhase lc vectorMems)), memKey p.2 = p.1 :=
    keysOk_graphPhase lc graphConcepts _
      (keysOk_recentPhase lc recentMems _
        (keysOk_vectorFold lc vectorMems [] (by simp)))
  have hkeys : ∀ k', k' ∈ (graphPhase lc graphConcepts
      (recentPhase lc recentMems (vectorPhase lc vectorMems))).map Prod.fst
      ↔ (∃ m ∈ vectorMems, memKey m = k') ∨ (∃ m ∈ recentMems, memKey m = k') := by
    intro k'
    rw [graphPhase_fst, recentPhase_keys]
    unfold vectorPhase
    rw [vectorFold_keys]
    simp only [List.map_nil, List.not_mem_nil, false_or]
  constructor
  · rintro ⟨m', hm', rfl⟩
    unfold combineAndRankMemories sortRanked at hm'
    rw [List.mem_insertionSort] at hm'
    obtain ⟨p, hp, rfl⟩ := List.mem_map.mp hm'
    rw [hok p hp]
    exact (hkeys p.1).mp (List.mem_map_of_mem Prod.fst hp)
  · intro h
    have hk : k ∈ (graphPhase lc graphConcepts
        (recentPhase lc recentMems (vectorPhase lc vectorMems))).map Prod.fst :=
      (hkeys k).mpr h
    obtain ⟨v, hv⟩ := Option.isSome_iff_exists.mp (dictGet?_isSome_of_mem_fst hk)
    refine ⟨v, ?_, ?_⟩
    · unfold combineAndRankMemories sortRanked
      rw [List.mem_insertionSort]
      exact List.mem_map_of_mem _ (dictGet?_mem hv)
    · exact hok (k, v) (dictGet?_mem hv)

theorem semanticWeight_nonneg (lc : Bool) : 0 ≤ semanticWeight lc := by
  cases lc <;> norm_num [semanticWeight]

theorem temporalWeight_nonneg (lc : Bool) : 0 ≤ temporalWeight lc := by
  cases lc <;> norm_num [temporalWeight]

theorem graphWeight_nonneg (lc : Bool) : 0 ≤ graphWeight lc := by
  cases lc <;> norm_num [graphWeight]

theorem nonneg_dictSet {d : List (String × Mem)} {k : String} {v : Mem}
    (hd : ∀ p ∈ d, ∃ s, p.2.score = some s ∧ 0 ≤ s)
    (hv : ∃ s, v.score = some s ∧ 0 ≤ s) :
    ∀ p ∈ dictSet k v d, ∃ s, p.2.score = some s ∧ 0 ≤ s := by
  induction d with
  | nil => simpa [dictSet] using hv
  | cons q rest ih =>
    by_cases hq : q.1 = k
    · intro p hp
      rcases List.mem_cons.mp (by simpa [dictSet, hq] using hp) with hpq | hp'
      · rw [hpq]
        exact hv
      · exact hd p (List.mem_cons_of_mem _ hp')
    · intro p hp
      rcases List.mem_cons.mp (by simpa [dictSet, hq] using hp) with hpq | hp'
      · rw [hpq]
        exact hd q (List.mem_cons_self _ _)
      · exact ih (fun r hr => hd r (List.mem_cons_of_mem _ hr)) p hp'

theorem nonneg_vectorFold (lc : Bool) (l : List Mem)
    (hc : ∀ m ∈ l, 0 ≤ m.certainty.getD 0.5) (acc : List (String × Mem))
    (hacc : ∀ p ∈ acc, ∃ s, p.2.score = some s ∧ 0 ≤ s) :
    ∀ p ∈ l.foldl (fun acc m => dictSet (memKey m) (vecEntry lc m) acc) acc,
      ∃ s, p.2.score = some s ∧ 0 ≤ s := by
  induction l generalizing acc with
  | nil => exact hacc
  | cons x xs ih =>
    rw [List.foldl_cons]
    refine ih (fun m hm => hc m (List.mem_cons_of_mem _ hm)) _
      (nonneg_dictSet hacc ?_)
    exact ⟨x.certainty.getD 0.5 * semanticWeight lc, rfl,
      mul_nonneg (hc x (List.mem_cons_self _ _)) (semanticWeight_nonneg lc)⟩

theorem nonneg_bumpScore {A : List (String × Mem)} (k : String) {d : ℝ}
    (hd : 0 ≤ d) (hA : ∀ p ∈ A, ∃ s, p.2.score = some s ∧ 0 ≤ s) :
    ∀ p ∈ bumpScore k d A, ∃ s, p.2.score = some s ∧ 0 ≤ s := by
  induction A with
  | nil => simpa [bumpScore] using hA
  | cons q rest ih =>
    by_cases hq : q.1 = k
    · intro p hp
      rcases List.mem_cons.mp (by simpa [bumpScore, hq] using hp) with hpq | hp'
      · obtain ⟨s, hs, hnn⟩ := hA q (List.mem_cons_self _ _)
        rw [hpq]
        exact ⟨s + d, by simp [hs], by linarith⟩
      · exact hA p (List.mem_cons_of_mem _ hp')
    · intro p hp
      rcases List.mem_cons.mp (by simpa [bumpScore, hq] using hp) with hpq | hp'
      · rw [hpq]
        exact hA q (List.mem_cons_self _ _)
      · exact ih (fun r hr => hA r (List.mem_cons_of_mem _ hr)) p hp'

theorem nonneg_recentPhase (lc : Bool) (l : List Mem) (acc : List (String × Mem))
    (hacc : ∀ p ∈ acc, ∃ s, p.2.score = some s ∧ 0 ≤ s) :
    ∀ p ∈ recentPhase lc l acc, ∃ s, p.2.score = some s ∧ 0 ≤ s := by
  induction l generalizing acc with
  | nil => exact hacc
  | cons x xs ih =>
    rw [recentPhase_cons]
    split_ifs with hs
    · exact ih _ (nonneg_bumpScore _ (temporalWeight_nonneg lc) hacc)
    · refine ih _ ?_
      intro p hp
      rcases List.mem_append.mp hp with hp' | hp'
      · exact hacc p hp'
      · rw [List.mem_singleton.mp hp']
        exact ⟨temporalWeight lc, rfl, temporalWeight_nonneg lc⟩

theorem nonneg_graphBoost (lc : Bool) (g : GraphConcept) (m : Mem)
    (hg : 0 ≤ g.strength) (hm : ∃ s, m.score = some s ∧ 0 ≤ s) :
    ∃ s, (graphBoost lc g m).score = some s ∧ 0 ≤ s := by
  obtain ⟨s, hs, hnn⟩ := hm
  rw [graphBoost_score_some lc g m s hs]
  refine ⟨_, rfl, ?_⟩
  have : 0 ≤ g.strength * graphWeight lc * (matchCount g m : ℝ) :=
    mul_nonneg (mul_nonneg hg (graphWeight_nonneg lc)) (Nat.cast_nonneg _)
  linarith

theorem nonneg_graphPhase (lc : Bool) (graphConcepts : List GraphConcept)
    (hg : ∀ g ∈ graphConcepts, 0 ≤ g.strength) (A : List (String × Mem))
    (hA : ∀ p ∈ A, ∃ s, p.2.score = some s ∧ 0 ≤ s) :
    ∀ p ∈ graphPhase lc graphConcepts A, ∃ s, p.2.score = some s ∧ 0 ≤ s := by
  induction graphConcepts generalizing A with
  | nil => exact hA
  | cons g rest ih =>
    have hstep : graphPhase lc (g :: rest) A
        = graphPhase lc rest (A.map (fun p => (p.1, graphBoost lc g p.2))) := rfl
    rw [hstep]
    refine ih (fun g' hg' => hg g' (List.mem_cons_of_mem _ hg')) _ ?_
    intro p hp
    obtain ⟨q, hq, rfl⟩ := List.mem_map.mp hp
    exact nonneg_graphBoost lc g q.2 (hg g (List.mem_cons_self _ _)) (hA q hq)

theorem nonneg_decayOne (parseTs : String → Option ℝ) (now : ℝ) (lc : Bool)
    (m : Mem) (hm : ∃ s, m.score = some s ∧ 0 ≤ s) :
    ∃ s, (decayOne parseTs now lc m).score = some s ∧ 0 ≤ s := by
  obtain ⟨s, hs, hnn⟩ := hm
  unfold decayOne
  by_cases h0 : m.timestamp = ""
  · rw [if_pos h0]
    exact ⟨s, hs, hnn⟩
  · rw [if_neg h0]
    cases hp : parseTs m.timestamp with
    | none => exact ⟨s, hs, hnn⟩
    | some t =>
      refine ⟨_, rfl, ?_⟩
      rw [hs]
      simp only [Option.getD_some]
      have htf := temporalFactor_nonneg lc (now - t)
      have hcw : (0:ℝ) ≤ (if lc then (0.65:ℝ) else 0.7)
          ∧ (if lc then (0.65:ℝ) else 0.7) ≤ 1 := by
        cases lc <;> norm_num
      nlinarith [hcw.1, hcw.2, htf, hnn]

/-- Claim C9 (amended): when every similarity hit's certainty (defaulting to
0.5 when absent) is non-negative and every graph strength is non-negative,
every candidate in the combiner output carries a (present, finite)
non-negative score, and this is preserved by temporal decay for every
timestamp environment.  (For arbitrary — e.g. negative — certainties the
original claim fails, see the counterexample.) -/
theorem combine_decay_nonneg (vectorMems recentMems : List Mem)
    (graphConcepts : List GraphConcept) (query : String) (lc : Bool)
    (parseTs : String → Option ℝ) (now : ℝ)
    (hc : ∀ m ∈ vectorMems, 0 ≤ m.certainty.getD 0.5)
    (hg : ∀ g ∈ graphConcepts, 0 ≤ g.strength) :
    ∀ m' ∈ applyTemporalScoring parseTs now lc
        (combineAndRankMemories vectorMems recentMems graphConcepts query lc),
      ∃ s, m'.score = some s ∧ 0 ≤ s := by
  intro m' hm'
  unfold applyTemporalScoring sortRanked at hm'
  rw [List.mem_insertionSort] at hm'
  obtain ⟨m0, hm0, rfl⟩ := List.mem_map.mp hm'
  refine nonneg_decayOne parseTs now lc m0 ?_
  unfold combineAndRankMemories sortRanked at hm0
  rw [List.mem_insertionSort] at hm0
  obtain ⟨p, hp, rfl⟩ := List.mem_map.mp hm0
  exact nonneg_graphPhase lc graphConcepts hg _
    (nonneg_recentPhase lc recentMems _
      (nonneg_vectorFold lc vectorMems hc [] (by simp))) p hp

/-- Claim C9 is false as stated ("any certainty values"): a single similarity
hit with certainty -1 yields the combined score -1 * 0.7 = -0.7 < 0. -/
theorem combine_negative_score :
    (combineAndRankMemories
        [{ timestamp := "t1", content := "x", certainty := some (-1) }]
        [] [] "" false).map (fun m => m.score.getD 0) = [-(7/10)]
    ∧ (-(7/10) : ℝ) < 0 := by
  constructor
  · unfold combineAndRankMemories graphPhase recentPhase vectorPhase sortRanked
    simp only [List.foldl_cons, List.foldl_nil, dictSet, List.map_cons, List.map_nil,
      List.insertionSort, List.orderedInsert]
    norm_num [vecEntry, semanticWeight]
  · norm_num

/-- Closed instance of `combine_decay_nonneg`: certainty 1/2, no recency or
graph hits, an unparseable-timestamp environment. -/
theorem combine_decay_nonneg_inst :
    (∀ m ∈ [sampleVecMem], 0 ≤ m.certainty.getD 0.5)
    ∧ (∀ g ∈ ([] : List GraphConcept), 0 ≤ g.strength)
    ∧ ∀ m' ∈ applyTemporalScoring (fun _ => none) 1 false
        (combineAndRankMemories [sampleVecMem] [] [] "" false),
      ∃ s, m'.score = some s ∧ 0 ≤ s :=
  ⟨by intro m hm
      rw [List.mem_singleton.mp hm]
      norm_num [sampleVecMem],
   by simp,
   combine_decay_nonneg [sampleVecMem] [] [] "" false (fun _ => none) 1
     (by intro m hm
         rw [List.mem_singleton.mp hm]
         norm_num [sampleVecMem])
     (by simp)⟩

theorem filter_orderedInsert_score (c : ℝ) (x : Mem) (l : List Mem) :
    (List.orderedInsert byScoreDesc x l).filter
        (fun m => decide (m.score.getD 0 = c))
      = if x.score.getD 0 = c then
          x :: l.filter (fun m => decide (m.score.getD 0 = c))
        else l.filter (fun m => decide (m.score.getD 0 = c)) := by
  induction l with
  | nil =>
    by_cases hx : x.score.getD 0 = c
    · simp [List.orderedInsert, List.filter, hx]
    · simp [List.orderedInsert, List.filter, hx]
  | cons y l ih =>
    by_cases hr : byScoreDesc x y
    · rw [List.orderedInsert_of_le _ _ hr]
      by_cases hx : x.score.getD 0 = c
      · simp [List.filter, hx]
      · simp [List.filter, hx]
    · have hstep : List.orderedInsert byScoreDesc x (y :: l)
          = y :: List.orderedInsert byScoreDesc x l := by
        simp [List.orderedInsert, hr]
      rw [hstep]
      have hy : ¬ (y.score.getD 0 = c) ∨ ¬ (x.score.getD 0 = c) := by
        by_cases hx : x.score.getD 0 = c
        · left
          intro hyc
          exact hr (by unfold byScoreDesc; rw [hyc, hx])
        · right
          exact hx
      by_cases hyc : y.score.getD 0 = c
      · have hx : ¬ (x.score.getD 0 = c) := by
          rcases hy with h | h
          · exact absurd hyc h
          · exact h
        simp [List.filter, hyc, hx, ih]
      · by_cases hx : x.score.getD 0 = c
        · simp [List.filter, hyc, hx, ih]
        · simp [List.filter, hyc, hx, ih]

theorem filter_insertionSort_score (c : ℝ) (l : List Mem) :
    (List.insertionSort byScoreDesc l).filter
        (fun m => decide (m.score.getD 0 = c))
      = l.filter (fun m => decide (m.score.getD 0 = c)) := by
  induction l with
  | nil => rfl
  | cons x l ih =>
    rw [List.insertionSort, filter_orderedInsert_score, ih]
    by_cases hx : x.score.getD 0 = c
    · simp [List.filter, hx]
    · simp [List.filter, hx]

/-- Claim C7 (amended): the ordering returned after temporal decay is
non-increasing in final score, and candidates with equal final scores keep
the relative order they had entering the sort (Python's sort is stable);
there is no recency tie-break. -/
theorem decay_sort_stable (parseTs : String → Option ℝ) (now : ℝ) (lc : Bool)
    (mems : List Mem) :
    List.Sorted byScoreDesc (applyTemporalScoring parseTs now lc mems)
    ∧ ∀ c : ℝ,
        (applyTemporalScoring parseTs now lc mems).filter
            (fun m => decide (m.score.getD 0 = c))
          = (mems.map (decayOne parseTs now lc)).filter
              (fun m => decide (m.score.getD 0 = c)) := by
  constructor
  · exact List.sorted_insertionSort byScoreDesc _
  · intro c
    exact filter_insertionSort_score c _

theorem decayOne_timestamp (parseTs : String → Option ℝ) (now : ℝ) (lc : Bool)
    (m : Mem) : (decayOne parseTs now lc m).timestamp = m.timestamp := by
  unfold decayOne
  by_cases h0 : m.timestamp = ""
  · rw [if_pos h0]
  · rw [if_neg h0]
    cases parseTs m.timestamp <;> rfl

theorem decayOne_score_getD (parseTs : String → Option ℝ) (now : ℝ) (lc : Bool)
    (m : Mem) (t s : ℝ) (hne : m.timestamp ≠ "")
    (hp : parseTs m.timestamp = some t) (hs : m.score = some s) :
    (decayOne parseTs now lc m).score.getD 0
      = s * (if lc then (0.65:ℝ) else 0.7)
        + temporalFactor lc (now - t) * (1 - (if lc then (0.65:ℝ) else 0.7)) := by
  simp only [decayOne, if_neg hne, hp, hs, Option.getD_some]

/-- Claim C7 is false on the code: after temporal decay, the memory from
instant 0 (raw score 153/700, aged 1 day) and the memory from instant 1
(raw score 0, aged 0) both end with final score 9/20, yet the older one is
placed first — the stable sort keeps input order and applies no recency
tie-break. -/
theorem decay_tie_not_recency_first :
    sampleParse "2024-01-01T00:00:00" = some 0
    ∧ sampleParse "2024-01-02T00:00:00" = some 1
    ∧ (applyTemporalScoring sampleParse 1 false
        [{ timestamp := "2024-01-01T00:00:00", score := some (153/700) },
         { timestamp := "2024-01-02T00:00:00", score := some 0 }]).map
          (fun m => (m.timestamp, m.score.getD 0))
      = [("2024-01-01T00:00:00", 9/20), ("2024-01-02T00:00:00", 9/20)] := by
  have hpO : sampleParse "2024-01-01T00:00:00" = some 0 := by
    unfold sampleParse
    rw [if_pos rfl]
  have hpY : sampleParse "2024-01-02T00:00:00" = some 1 := by
    unfold sampleParse
    rw [if_neg (by decide), if_neg (by decide), if_pos rfl]
  refine ⟨hpO, hpY, ?_⟩
  have tfO : temporalFactor false ((1:ℝ) - 0) = 0.9 * 1.1 := by
    rw [show ((1:ℝ) - 0) = 1 by norm_num]
    unfold temporalFactor tierMult recentBoost baseDecay
    rw [if_neg (by norm_num : ¬ ((1:ℝ) < 1/24)), if_neg (by norm_num : ¬ ((1:ℝ) < 1)),
      if_pos (by norm_num : ((1:ℝ) < 7)), if_neg (by decide : ¬ (false = true)),
      Real.rpow_one]
  have tfY : temporalFactor false ((1:ℝ) - 1) = 1 * 1.5 := by
    rw [show ((1:ℝ) - 1) = 0 by norm_num]
    unfold temporalFactor tierMult recentBoost baseDecay
    rw [if_pos (by norm_num : ((0:ℝ) < 1/24)), if_neg (by decide : ¬ (false = true)),
      if_neg (by decide : ¬ (false = true)), Real.rpow_zero]
  set mO : Mem := { timestamp := "2024-01-01T00:00:00", score := some (153/700) }
  set mY : Mem := { timestamp := "2024-01-02T00:00:00", score := some 0 }
  have hO : (decayOne sampleParse 1 false mO).score.getD 0 = 9/20 := by
    rw [decayOne_score_getD sampleParse 1 false mO 0 (153/700) (by decide) hpO rfl]
    rw [tfO]
    norm_num
  have hY : (decayOne sampleParse 1 false mY).score.getD 0 = 9/20 := by
    rw [decayOne_score_getD sampleParse 1 false mY 1 0 (by decide) hpY rfl]
    rw [tfY]
    norm_num
  have hsort : applyTemporalScoring sampleParse 1 false [mO, mY]
      = [decayOne sampleParse 1 false mO, decayOne sampleParse 1 false mY] := by
    unfold applyTemporalScoring sortRanked
    simp only [List.map_cons, List.map_nil, List.insertionSort, List.orderedInsert]
    rw [if_pos (by unfold byScoreDesc; rw [hO, hY])]
  rw [hsort]
  simp only [List.map_cons, List.map_nil]
  rw [hO, hY, decayOne_timestamp, decayOne_timestamp]

/-- Claim C3: a failing collaborator call is exactly an empty result for
that source — failing the similarity search, the recency lookup, or any
per-concept graph call changes nothing against the degraded (empty / ok)
form, the other sources still feeding the ranking — and the caller always
receives a list (the return type of `retrieveContext` is a list, never a
fault). -/
theorem retrieve_degrades_failed_sources (S : Settings)
    (parseTs : String → Option ℝ) (now : ℝ) (userId query : String)
    (kArg : Option ℕ) (includeGraph : Bool) (lcArg : Option Bool) (e : Unit)
    (rawVector rawRecent : Except Unit (List Item))
    (rawGraph : String → Except Unit (List GraphConcept)) (cache : Cache) :
    retrieveContext S parseTs now userId query kArg includeGraph lcArg
        (Except.error e) rawRecent rawGraph cache
      = retrieveContext S parseTs now userId query kArg includeGraph lcArg
        (Except.ok []) rawRecent rawGraph cache
    ∧ retrieveContext S parseTs now userId query kArg includeGraph lcArg
        rawVector (Except.error e) rawGraph cache
      = retrieveContext S parseTs now userId query kArg includeGraph lcArg
        rawVector (Except.ok []) rawGraph cache
    ∧ retrieveContext S parseTs now userId query kArg includeGraph lcArg
        rawVector rawRecent rawGraph cache
      = retrieveContext S parseTs now userId query kArg includeGraph lcArg
        rawVector rawRecent
        (fun c => Except.ok (findRelatedConcepts (rawGraph c))) cache :=
  ⟨rfl, rfl, rfl⟩

theorem mem_dictSet_elim {κ β : Type} [DecidableEq κ] {k : κ} {v : β}
    {d : List (κ × β)} {p : κ × β} (h : p ∈ dictSet k v d) :
    p = (k, v) ∨ p ∈ d := by
  induction d with
  | nil => simpa [dictSet] using h
  | cons q rest ih =>
    by_cases hq : q.1 = k
    · rcases List.mem_cons.mp (by simpa [dictSet, hq] using h) with h' | h'
      · exact Or.inl h'
      · exact Or.inr (List.mem_cons_of_mem _ h')
    · rcases List.mem_cons.mp (by simpa [dictSet, hq] using h) with h' | h'
      · exact Or.inr (by simp [h'])
      · rcases ih h' with h'' | h''
        · exact Or.inl h''
        · exact Or.inr (List.mem_cons_of_mem _ h'')

theorem missRetrieval_length (parseTs : String → Option ℝ) (now : ℝ)
    (query : String) (includeGraph lc : Bool) (k : ℕ)
    (rawVector rawRecent : Except Unit (List Item))
    (rawGraph : String → Except Unit (List GraphConcept)) :
    (missRetrieval parseTs now query includeGraph lc k rawVector rawRecent
      rawGraph).length ≤ k := by
  unfold missRetrieval
  exact List.length_take_le _ _

theorem retrieveContext_hit (S : Settings) (parseTs : String → Option ℝ)
    (now : ℝ) (userId query : String) (kArg : Option ℕ) (includeGraph : Bool)
    (lcArg : Option Bool) (rawVector rawRecent : Except Unit (List Item))
    (rawGraph : String → Except Unit (List GraphConcept)) (cache : Cache)
    (v : List Mem)
    (h : dictGet? (⟨userId, query, (effectiveLimit S kArg lcArg).1,
        includeGraph⟩ : CacheKey) cache = some v) :
    retrieveContext S parseTs now userId query kArg includeGraph lcArg
        rawVector rawRecent rawGraph cache = (v, cache) := by
  unfold retrieveContext
  dsimp only
  rw [h]

theorem retrieveContext_miss (S : Settings) (parseTs : String → Option ℝ)
    (now : ℝ) (userId query : String) (kArg : Option ℕ) (includeGraph : Bool)
    (lcArg : Option Bool) (rawVector rawRecent : Except Unit (List Item))
    (rawGraph : String → Except Unit (List GraphConcept)) (cache : Cache)
    (h : dictGet? (⟨userId, query, (effectiveLimit S kArg lcArg).1,
        includeGraph⟩ : CacheKey) cache = none) :
    retrieveContext S parseTs now userId query kArg includeGraph lcArg
        rawVector rawRecent rawGraph cache
      = (missRetrieval parseTs now query includeGraph
            (effectiveLimit S kArg lcArg).2 (effectiveLimit S kArg lcArg).1
            rawVector rawRecent rawGraph,
         dictSet (⟨userId, query, (effectiveLimit S kArg lcArg).1,
            includeGraph⟩ : CacheKey)
           (missRetrieval parseTs now query includeGraph
             (effectiveLimit S kArg lcArg).2 (effectiveLimit S kArg lcArg).1
             rawVector rawRecent rawGraph) cache) := by
  unfold retrieveContext
  dsimp only
  rw [h]

/-- Claim C1: for every query, subject, positive limit and collaborator
responses (and any well-formed cache), the list returned by
`retrieve_context` has length at most the effective limit — the requested
limit normally, `min(limit * 2, CONTEXT_MEMORY_LIMIT)` in long-context mode
— and the cache stays well-formed. -/
theorem retrieve_length_le (S : Settings) (parseTs : String → Option ℝ)
    (now : ℝ) (userId query : String) (k : ℕ) (includeGraph : Bool)
    (lcArg : Option Bool) (rawVector rawRecent : Except Unit (List Item))
    (rawGraph : String → Except Unit (List GraphConcept)) (cache : Cache)
    (hk : 0 < k) (hwf : CacheWF cache) :
    (retrieveContext S parseTs now userId query (some k) includeGraph lcArg
        rawVector rawRecent rawGraph cache).1.length
      ≤ (if lcArg.getD S.enable_long_context then min (k * 2) S.context_memory_limit
          else k)
    ∧ CacheWF (retrieveContext S parseTs now userId query (some k) includeGraph
        lcArg rawVector rawRecent rawGraph cache).2 := by
  cases hl : dictGet?
      (⟨userId, query, (effectiveLimit S (some k) lcArg).1, includeGraph⟩ :
        CacheKey) cache with
  | some v =>
    rw [retrieveContext_hit S parseTs now userId query (some k) includeGraph lcArg
      rawVector rawRecent rawGraph cache v hl]
    exact ⟨hwf _ (dictGet?_mem hl), hwf⟩
  | none =>
    rw [retrieveContext_miss S parseTs now userId query (some k) includeGraph lcArg
      rawVector rawRecent rawGraph cache hl]
    refine ⟨missRetrieval_length _ _ _ _ _ _ _ _ _, ?_⟩
    intro p hp
    rcases mem_dictSet_elim hp with hpe | hpe
    · rw [hpe]
      exact missRetrieval_length _ _ _ _ _ _ _ _ _
    · exact hwf p hpe

/-- Closed instance of `retrieve_length_le` with limit 3, empty
collaborators and an empty cache. -/
theorem retrieve_length_le_inst :
    (0 : ℕ) < 3 ∧ CacheWF []
    ∧ (retrieveContext {} (fun _ => none) 0 "u" "q" (some 3) false (some false)
        (Except.ok []) (Except.ok []) (fun _ => Except.ok []) []).1.length
      ≤ (if (some false).getD ({} : Settings).enable_long_context
          then min (3 * 2) ({} : Settings).context_memory_limit else 3)
    ∧ CacheWF (retrieveContext {} (fun _ => none) 0 "u" "q" (some 3) false
        (some false) (Except.ok []) (Except.ok []) (fun _ => Except.ok []) []).2 := by
  have h := retrieve_length_le {} (fun _ => none) 0 "u" "q" 3 false (some false)
    (Except.ok []) (Except.ok []) (fun _ => Except.ok []) []
    (by norm_num) (by intro p hp; simp at hp)
  exact ⟨by norm_num, by intro p hp; simp at hp, h.1, h.2⟩

theorem searchMemories_id (raw : Except Unit (List Item)) (minCertainty : ℝ) :
    ∀ m ∈ searchMemories raw minCertainty, m.id = none := by
  cases raw with
  | error e => simp [searchMemories]
  | ok items =>
    intro m hm
    simp only [searchMemories, List.mem_map] at hm
    obtain ⟨it, _, rfl⟩ := hm
    rfl

theorem getRecentMemories_id (raw : Except Unit (List Item)) :
    ∀ m ∈ getRecentMemories raw, m.id = none := by
  cases raw with
  | error e => simp [getRecentMemories]
  | ok items =>
    intro m hm
    simp only [getRecentMemories, List.mem_map] at hm
    obtain ⟨it, _, rfl⟩ := hm
    rfl

theorem idNone_dictSet {d : List (String × Mem)} {k : String} {v : Mem}
    (hd : ∀ p ∈ d, p.2.id = none) (hv : v.id = none) :
    ∀ p ∈ dictSet k v d, p.2.id = none := by
  intro p hp
  rcases mem_dictSet_elim hp with hpe | hpe
  · rw [hpe]
    exact hv
  · exact hd p hpe

theorem idNone_vectorFold (lc : Bool) (l : List Mem)
    (hl : ∀ m ∈ l, m.id = none) (acc : List (String × Mem))
    (hacc : ∀ p ∈ acc, p.2.id = none) :
    ∀ p ∈ l.foldl (fun acc m => dictSet (memKey m) (vecEntry lc m) acc) acc,
      p.2.id = none := by
  induction l generalizing acc with
  | nil => exact hacc
  | cons x xs ih =>
    rw [List.foldl_cons]
    exact ih (fun m hm => hl m (List.mem_cons_of_mem _ hm)) _
      (idNone_dictSet hacc (hl x (List.mem_cons_self _ _)))

theorem idNone_bumpScore {A : List (String × Mem)} (k : String) (d : ℝ)
    (hA : ∀ p ∈ A, p.2.id = none) :
    ∀ p ∈ bumpScore k d A, p.2.id = none := by
  induction A with
  | nil => simpa [bumpScore] using hA
  | cons q rest ih =>
    by_cases hq : q.1 = k
    · intro p hp
      rcases List.mem_cons.mp (by simpa [bumpScore, hq] using hp) with hpq | hp'
      · rw [hpq]
        exact hA q (List.mem_cons_self _ _)
      · exact hA p (List.mem_cons_of_mem _ hp')
    · intro p hp
      rcases List.mem_cons.mp (by simpa [bumpScore, hq] using hp) with hpq | hp'
      · rw [hpq]
        exact hA q (List.mem_cons_self _ _)
      · exact ih (fun r hr => hA r (List.mem_cons_of_mem _ hr)) p hp'

theorem idNone_recentPhase (lc : Bool) (l : List Mem)
    (hl : ∀ m ∈ l, m.id = none) (acc : List (String × Mem))
    (hacc : ∀ p ∈ acc, p.2.id = none) :
    ∀ p ∈ recentPhase lc l acc, p.2.id = none := by
  induction l generalizing acc with
  | nil => exact hacc
  | cons x xs ih =>
    rw [recentPhase_cons]
    split_ifs with hs
    · exact ih (fun m hm => hl m (List.mem_cons_of_mem _ hm)) _
        (idNone_bumpScore _ _ hacc)
    · refine ih (fun m hm => hl m (List.mem_cons_of_mem _ hm)) _ ?_
      intro p hp
      rcases List.mem_append.mp hp with hp' | hp'
      · exact hacc p hp'
      · rw [List.mem_singleton.mp hp']
        exact hl x (List.mem_cons_self _ _)

theorem graphBoost_id (lc : Bool) (g : GraphConcept) (m : Mem) :
    (graphBoost lc g m).id = m.id := by
  unfold graphBoost
  split_ifs <;> rfl

theorem idNone_graphPhase (lc : Bool) (graphConcepts : List GraphConcept)
    (A : List (String × Mem)) (hA : ∀ p ∈ A, p.2.id = none) :
    ∀ p ∈ graphPhase lc graphConcepts A, p.2.id = none := by
  induction graphConcepts generalizing A with
  | nil => exact hA
  | cons g rest ih =>
    have hstep : graphPhase lc (g :: rest) A
        = graphPhase lc rest (A.map (fun p => (p.1, graphBoost lc g p.2))) := rfl
    rw [hstep]
    refine ih _ ?_
    intro p hp
    obtain ⟨q, hq, rfl⟩ := List.mem_map.mp hp
    simpa [graphBoost_id] using hA q hq

theorem decayOne_id (parseTs : String → Option ℝ) (now : ℝ) (lc : Bool)
    (m : Mem) : (decayOne parseTs now lc m).id = m.id := by
  unfold decayOne
  by_cases h0 : m.timestamp = ""
  · rw [if_pos h0]
  · rw [if_neg h0]
    cases parseTs m.timestamp <;> rfl

theorem missRetrieval_id (parseTs : String → Option ℝ) (now : ℝ)
    (query : String) (includeGraph lc : Bool) (k : ℕ)
    (rawVector rawRecent : Except Unit (List Item))
    (rawGraph : String → Except Unit (List GraphConcept)) :
    ∀ m ∈ missRetrieval parseTs now query includeGraph lc k rawVector rawRecent
        rawGraph, m.id = none := by
  intro m hm
  unfold missRetrieval at hm
  have hm1 := List.take_subset _ _ hm
  unfold applyTemporalScoring sortRanked at hm1
  rw [List.mem_insertionSort] at hm1
  obtain ⟨m0, hm0, rfl⟩ := List.mem_map.mp hm1
  rw [decayOne_id]
  unfold combineAndRankMemories sortRanked at hm0
  rw [List.mem_insertionSort] at hm0
  obtain ⟨p, hp, rfl⟩ := List.mem_map.mp hm0
  exact idNone_graphPhase _ _ _
    (idNone_recentPhase _ _ (getRecentMemories_id rawRecent) _
      (idNone_vectorFold _ _ (searchMemories_id rawVector _) [] (by simp))) p hp

theorem heap_getD_id {st : EngineState} (hwf : HeapWF st) (r : ℕ) :
    (st.heap.getD r {}).id = none := by
  rw [List.getD_eq_getD_get?]
  cases hr : st.heap.get? r with
  | none => rfl
  | some m => exact hwf m (List.get?_mem hr)

theorem addMemoryConnections_noop (connsFor : String → List String)
    (refs : List ℕ) (st : EngineState) (hwf : HeapWF st) :
    addMemoryConnections connsFor refs st = st := by
  induction refs with
  | nil => rfl
  | cons r rs ih =>
    have hstep : addMemoryConnections connsFor (r :: rs) st
        = addMemoryConnections connsFor rs
            (let m := st.heap.getD r {}
             if (m.id.getD "") ≠ "" then
               let m1 := { m with connections := some (connsFor (m.id.getD "")) }
               let m2 :=
                 if m1.enhanced_metadata.isSome then
                   { m1 with sdk_capabilities := m1.enhanced_metadata }
                 else m1
               { st with heap := st.heap.set r m2 }
             else st) := rfl
    rw [hstep]
    have hid : (st.heap.getD r {}).id = none := heap_getD_id hwf r
    simp only [hid, Option.getD_none, ne_eq, not_true_eq_false, if_false]
    exact ih

theorem retrieveHeap_hit (S : Settings) (parseTs : String → Option ℝ) (now : ℝ)
    (userId query : String) (kArg : Option ℕ) (includeGraph : Bool)
    (lcArg : Option Bool) (rawVector rawRecent : Except Unit (List Item))
    (rawGraph : String → Except Unit (List GraphConcept)) (st : EngineState)
    (refs : List ℕ)
    (h : dictGet? (⟨userId, query, (effectiveLimit S kArg lcArg).1,
        includeGraph⟩ : CacheKey) st.cache = some refs) :
    retrieveHeap S parseTs now userId query kArg includeGraph lcArg rawVector
      rawRecent rawGraph st = (refs, st) := by
  unfold retrieveHeap
  dsimp only
  rw [h]

theorem retrieveHeap_miss (S : Settings) (parseTs : String → Option ℝ) (now : ℝ)
    (userId query : String) (kArg : Option ℕ) (includeGraph : Bool)
    (lcArg : Option Bool) (rawVector rawRecent : Except Unit (List Item))
    (rawGraph : String → Except Unit (List GraphConcept)) (st : EngineState)
    (h : dictGet? (⟨userId, query, (effectiveLimit S kArg lcArg).1,
        includeGraph⟩ : CacheKey) st.cache = none) :
    retrieveHeap S parseTs now userId query kArg includeGraph lcArg rawVector
        rawRecent rawGraph st
      = (let finalMems := missRetrieval parseTs now query includeGraph
            (effectiveLimit S kArg lcArg).2 (effectiveLimit S kArg lcArg).1
            rawVector rawRecent rawGraph
         ((List.range finalMems.length).map (fun i => st.heap.length + i),
          ⟨st.heap ++ finalMems,
           dictSet (⟨userId, query, (effectiveLimit S kArg lcArg).1,
              includeGraph⟩ : CacheKey)
             ((List.range finalMems.length).map (fun i => st.heap.length + i))
             st.cache⟩)) := by
  unfold retrieveHeap
  dsimp only
  rw [h]

/-- Claim C5: cache entries written by retrieval are never mutated in
place.  A cache hit returns exactly the stored entry with no re-scoring or
re-decay and leaves the state unchanged; retrieval preserves the invariant
that no heap memory carries an `id` key (the vector-store wrappers never
emit one); and therefore `_add_memory_connections` — whose in-place dict
mutation is guarded by `memory.get('id', '')` being truthy — is the
identity on the engine state, so proactive retrieval's enrichment never
alters a stored entry either. -/
theorem cache_entries_immutable (S : Settings) (parseTs : String → Option ℝ)
    (now : ℝ) (userId query : String) (kArg : Option ℕ) (includeGraph : Bool)
    (lcArg : Option Bool) (rawVector rawRecent : Except Unit (List Item))
    (rawGraph : String → Except Unit (List GraphConcept))
    (connsFor : String → List String) (st : EngineState) (hwf : HeapWF st) :
    (∀ refs, dictGet? (⟨userId, query, (effectiveLimit S kArg lcArg).1,
        includeGraph⟩ : CacheKey) st.cache = some refs →
      retrieveHeap S parseTs now userId query kArg includeGraph lcArg rawVector
        rawRecent rawGraph st = (refs, st))
    ∧ HeapWF (retrieveHeap S parseTs now userId query kArg includeGraph lcArg
        rawVector rawRecent rawGraph st).2
    ∧ addMemoryConnections connsFor
        (retrieveHeap S parseTs now userId query kArg includeGraph lcArg
          rawVector rawRecent rawGraph st).1
        (retrieveHeap S parseTs now userId query kArg includeGraph lcArg
          rawVector rawRecent rawGraph st).2
      = (retrieveHeap S parseTs now userId query kArg includeGraph lcArg
          rawVector rawRecent rawGraph st).2 := by
  refine ⟨fun refs h => retrieveHeap_hit S parseTs now userId query kArg
    includeGraph lcArg rawVector rawRecent rawGraph st refs h, ?_⟩
  cases hl : dictGet? (⟨userId, query, (effectiveLimit S kArg lcArg).1,
      includeGraph⟩ : CacheKey) st.cache with
  | some refs =>
    rw [retrieveHeap_hit S parseTs now userId query kArg includeGraph lcArg
      rawVector rawRecent rawGraph st refs hl]
    exact ⟨hwf, addMemoryConnections_noop connsFor refs st hwf⟩
  | none =>
    rw [retrieveHeap_miss S parseTs now userId query kArg includeGraph lcArg
      rawVector rawRecent rawGraph st hl]
    have hwf2 : HeapWF (⟨st.heap ++ missRetrieval parseTs now query includeGraph
        (effectiveLimit S kArg lcArg).2 (effectiveLimit S kArg lcArg).1
        rawVector rawRecent rawGraph,
        dictSet (⟨userId, query, (effectiveLimit S kArg lcArg).1,
          includeGraph⟩ : CacheKey)
          ((List.range (missRetrieval parseTs now query includeGraph
            (effectiveLimit S kArg lcArg).2 (effectiveLimit S kArg lcArg).1
            rawVector rawRecent rawGraph).length).map
            (fun i => st.heap.length + i))
          st.cache⟩ : EngineState) := by
      intro m hm
      rcases List.mem_append.mp hm with hm' | hm'
      · exact hwf m hm'
      · exact missRetrieval_id parseTs now query includeGraph
          (effectiveLimit S kArg lcArg).2 (effectiveLimit S kArg lcArg).1
          rawVector rawRecent rawGraph m hm'
    exact ⟨hwf2, addMemoryConnections_noop connsFor _ _ hwf2⟩

/-- Closed instance of `cache_entries_immutable`: an empty heap whose cache
already holds the key, so retrieval hits and enrichment changes nothing. -/
theorem cache_entries_immutable_inst :
    HeapWF ⟨[], [((⟨"u", "q", 3, false⟩ : CacheKey), [0])]⟩
    ∧ retrieveHeap {} (fun _ => none) 0 "u" "q" (some 3) false (some false)
        (Except.ok []) (Except.ok []) (fun _ => Except.ok [])
        ⟨[], [((⟨"u", "q", 3, false⟩ : CacheKey), [0])]⟩
      = ([0], ⟨[], [((⟨"u", "q", 3, false⟩ : CacheKey), [0])]⟩)
    ∧ addMemoryConnections (fun _ => []) [0]
        ⟨[], [((⟨"u", "q", 3, false⟩ : CacheKey), [0])]⟩
      = ⟨[], [((⟨"u", "q", 3, false⟩ : CacheKey), [0])]⟩ := by
  have hwf0 : HeapWF ⟨[], [((⟨"u", "q", 3, false⟩ : CacheKey), [0])]⟩ := by
    intro m hm
    simp at hm
  have h := cache_entries_immutable {} (fun _ => none) 0 "u" "q" (some 3) false
    (some false) (Except.ok []) (Except.ok []) (fun _ => Except.ok [])
    (fun _ => []) ⟨[], [((⟨"u", "q", 3, false⟩ : CacheKey), [0])]⟩ hwf0
  have hhit := h.1 [0] (by rfl)
  refine ⟨hwf0, hhit, ?_⟩
  have hnoop := h.2.2
  rw [hhit] at hnoop
  exact hnoop
